import Mathlib

/-!
Verification of the creation-handshake core of the `meteoritus` tus-server
crate: the strict metadata codec (`src/fs/metadata.rs`) and the creation
negotiator/orchestrator (`src/handlers/creation.rs`).

Rust strings are embedded as `List Char`; `HashMap<String, String>` as an
association list with overwrite-on-insert; fallible operations return
`Except`.  Machine integers (`u64`) are embedded as `Nat` with explicit
bounds where they matter.
-/

/-- Embedding of a Rust `&str` / `String` as a list of characters. -/
abbrev Str := List Char

/-- Rust `char::is_whitespace`: the Unicode `White_Space` property. -/
def isRustWhitespace (c : Char) : Bool :=
  let n := c.toNat
  (9 ≤ n && n ≤ 13) || n == 32 || n == 133 || n == 160 || n == 5760 ||
  (8192 ≤ n && n ≤ 8202) || n == 8232 || n == 8233 || n == 8239 ||
  n == 8287 || n == 12288

/-- Rust `str::trim` (strip leading whitespace). -/
def trimLeft (s : Str) : Str := s.dropWhile isRustWhitespace

/-- Rust `str::trim`: strip leading and trailing whitespace. -/
def rustTrim (s : Str) : Str :=
  ((trimLeft s).reverse.dropWhile isRustWhitespace).reverse

/-- Rust `str::split(sep)`: split on every occurrence of the separator
character; always yields at least one (possibly empty) segment. -/
def splitOnChar (sep : Char) : Str → List Str
  | [] => [[]]
  | c :: cs =>
    let r := splitOnChar sep cs
    if c = sep then [] :: r
    else (c :: r.headD []) :: r.tail

/-- Association-list embedding of `HashMap<String, String>::insert`:
the new binding replaces any existing binding of the same key. -/
def mapInsert (m : List (Str × Str)) (k v : Str) : List (Str × Str) :=
  m.filter (fun p => !(p.1 == k)) ++ [(k, v)]

/-- Association-list embedding of `HashMap<String, String>::get`. -/
def mapGet (m : List (Str × Str)) (k : Str) : Option Str :=
  (m.find? (fun p => p.1 == k)).map (·.2)

/-! ## Base64 (crate `base64`, engine `general_purpose::STANDARD`) -/

/-- The standard Base64 alphabet, in value order. -/
def b64chars : List Char :=
  ['A','B','C','D','E','F','G','H','I','J','K','L','M','N','O','P',
   'Q','R','S','T','U','V','W','X','Y','Z',
   'a','b','c','d','e','f','g','h','i','j','k','l','m','n','o','p',
   'q','r','s','t','u','v','w','x','y','z',
   '0','1','2','3','4','5','6','7','8','9','+','/']

/-- Character for a 6-bit value. -/
def b64char (n : Nat) : Char := b64chars.getD n 'A'

/-- Value of an alphabet character (`none` for characters outside the
standard alphabet, including the padding character). -/
def b64val (c : Char) : Option Nat :=
  let i := b64chars.indexOf c
  if i < 64 then some i else none

/-- Standard Base64 encoding with padding (`STANDARD.encode`), on bytes
represented as `Nat` values below 256. -/
def b64encode : List Nat → List Char
  | a :: b :: c :: rest =>
    b64char (a / 4) :: b64char (a % 4 * 16 + b / 16) ::
    b64char (b % 16 * 4 + c / 64) :: b64char (c % 64) :: b64encode rest
  | [a, b] => [b64char (a / 4), b64char (a % 4 * 16 + b / 16), b64char (b % 16 * 4), '=']
  | [a] => [b64char (a / 4), b64char (a % 4 * 16), '=', '=']
  | [] => []

/-- Strict standard Base64 decoding (`STANDARD.decode`): requires canonical
padding to a multiple of four characters, rejects characters outside the
alphabet, and rejects non-zero trailing bits.  Errors carry the decoder's
diagnostic text. -/
def b64decode : List Char → Except String (List Nat)
  | [] => .ok []
  | c1 :: c2 :: c3 :: c4 :: rest =>
    match b64val c1, b64val c2 with
    | some v1, some v2 =>
      if c3 = '=' ∧ c4 = '=' ∧ rest = [] then
        if v2 % 16 = 0 then .ok [v1 * 4 + v2 / 16]
        else .error "Invalid last symbol"
      else if c4 = '=' ∧ rest = [] then
        match b64val c3 with
        | some v3 =>
          if v3 % 4 = 0 then .ok [v1 * 4 + v2 / 16, v2 % 16 * 16 + v3 / 4]
          else .error "Invalid last symbol"
        | none => .error "Invalid symbol"
      else
        match b64val c3, b64val c4 with
        | some v3, some v4 =>
          match b64decode rest with
          | .ok ds =>
            .ok ((v1 * 4 + v2 / 16) :: (v2 % 16 * 16 + v3 / 4) :: (v3 % 4 * 64 + v4) :: ds)
          | .error e => .error e
        | _, _ => .error "Invalid symbol"
    | _, _ => .error "Invalid symbol"
  | _ => .error "Invalid input length"

/-! ## Strict metadata codec (`src/fs/metadata.rs`) -/

/-- `MetadataError` from `src/fs/metadata.rs`. -/
inductive MetadataError where
  | InvalidKey : MetadataError
  | DecodeError : String → MetadataError
  | InvalidMetadataFormat : MetadataError
deriving DecidableEq

/-- `Metadata`: a newtype over `HashMap<String, String>`. -/
structure Metadata where
  entries : List (Str × Str)
deriving DecidableEq

/-- The pair loop of `Metadata::try_from` (`src/fs/metadata.rs`, lines
52–77): trim each comma-separated pair, skip empty pairs, split on the
space character (trimming each token), reject pairs of more than two
tokens with `InvalidMetadataFormat` and an empty first token with
`InvalidKey`, and insert `(key, value-or-empty)` into the map. -/
def tryFromPairs : List Str → List (Str × Str) → Except MetadataError (List (Str × Str))
  | [], m => .ok m
  | pair :: rest, m =>
    let t := rustTrim pair
    if t = [] then tryFromPairs rest m
    else
      let parts := (splitOnChar ' ' t).map rustTrim
      if parts = [] ∨ parts.length > 2 then .error .InvalidMetadataFormat
      else if parts.headD [] = [] then .error .InvalidKey
      else tryFromPairs rest (mapInsert m (parts.headD []) ((parts.get? 1).getD []))

/-- `Metadata::try_from(&str)` (`src/fs/metadata.rs`, lines 45–80):
an empty input is `InvalidMetadataFormat`; otherwise the input is split on
`','` and the pairs are processed in order into an initially empty map. -/
def Metadata.try_from (value : Str) : Except MetadataError Metadata :=
  if value = [] then .error .InvalidMetadataFormat
  else (tryFromPairs (splitOnChar ',' value) []).map Metadata.mk

/-- `Metadata::get_raw` (`src/fs/metadata.rs`, lines 29–39): look the key
up (absent key is `InvalidKey`), then strict-standard-Base64-decode the
stored value (failure is `DecodeError` with the decoder's text). -/
def Metadata.get_raw (m : Metadata) (key : Str) : Except MetadataError (List Nat) :=
  match mapGet m.entries key with
  | none => .error .InvalidKey
  | some v =>
    match b64decode v with
    | .ok decoded => .ok decoded
    | .error e => .error (.DecodeError e)

/-! ## Creation negotiator and orchestrator (`src/handlers/creation.rs`) -/

/-- The pair loop of `parse_tus_metadata` (`src/handlers/creation.rs`,
lines 119–127): for each comma-separated pair, find the first space;
a pair with no space is silently dropped, otherwise the pair is split at
that index, both halves are trimmed, and the binding is inserted. -/
def parseTusPairs : List Str → List (Str × Str) → List (Str × Str)
  | [], m => m
  | pair :: rest, m =>
    match pair.findIdx? (· = ' ') with
    | none => parseTusPairs rest m
    | some idx =>
      parseTusPairs rest (mapInsert m (rustTrim (pair.take idx)) (rustTrim (pair.drop idx)))

/-- `parse_tus_metadata` (`src/handlers/creation.rs`, lines 115–131): the
lenient metadata reader used by the negotiator. -/
def parse_tus_metadata (metadata_str : Str) : List (Str × Str) :=
  if metadata_str = [] then []
  else parseTusPairs (splitOnChar ',' metadata_str) []

/-- Rocket `http::Status` values used by the handler. -/
inductive Status where
  | BadRequest | PayloadTooLarge | InternalServerError | Created
deriving DecidableEq

/-- The four request headers `CreationRequest::from_request` reads
(each `get_one` result). -/
structure RequestHeaders where
  tusResumable : Option Str
  contentLength : Option Str
  uploadLength : Option Str
  uploadMetadata : Option Str

/-- Rocket `request::Outcome` as used here (success or failure with a
status and a static message). -/
inductive ReqOutcome (α : Type) where
  | Success : α → ReqOutcome α
  | Failure : Status → String → ReqOutcome α
deriving DecidableEq

/-- `CreationRequest` (`src/handlers/creation.rs`, lines 32–37). -/
structure CreationRequest where
  upload_length : Nat
  metadata : Option (List (Str × Str))
deriving DecidableEq

/-- Rust `str::parse::<u64>()`: an optional leading `'+'`, then at least
one ASCII digit, with the value below `2^64`. -/
def parseU64 (s : Str) : Option Nat :=
  let digits := match s with
    | '+' :: rest => rest
    | _ => s
  if digits = [] then none
  else if digits.all (·.isDigit) then
    let n := digits.foldl (fun acc c => acc * 10 + (c.toNat - 48)) 0
    if n < 2 ^ 64 then some n else none
  else none

/-- `CreationRequest::from_request` (`src/handlers/creation.rs`, lines
43–90), with the server's configured maximum size (`meteoritus.max_size`)
passed explicitly.  The checks run in source order: `Tus-Resumable`
presence and exact value, `Content-Length` presence (its parsed value is
discarded), `Upload-Length` presence and `u64` parse, the maximum-size
ceiling, and finally the optional lenient metadata parse. -/
def from_request (maxSize : Nat) (h : RequestHeaders) : ReqOutcome CreationRequest :=
  match h.tusResumable with
  | none => .Failure .BadRequest "Missing or invalid Tus-Resumable header"
  | some v =>
    if v ≠ "1.0.0".toList then
      .Failure .BadRequest "Missing or invalid Tus-Resumable header"
    else
      match h.contentLength with
      | none => .Failure .BadRequest "Missing Content-Length header"
      | some _ =>
        match h.uploadLength with
        | none => .Failure .BadRequest "Missing Upload-Length header"
        | some s =>
          match parseU64 s with
          | none => .Failure .BadRequest "Invalid Upload-Length header"
          | some upload_length =>
            if upload_length > maxSize then
              .Failure .PayloadTooLarge "Upload-Length exceeds the Tus-Max-Size"
            else
              let metadata := match h.uploadMetadata with
                | none => none
                | some m => if m = [] then none else some (parse_tus_metadata m)
              .Success { upload_length := upload_length, metadata := metadata }

/-- Modelled from the spec: `CometFile` (the upload record) lives in the
crate's `comet_vault` module, which is not part of the analyzed core.  Per
§3 of the spec it is "identified by a server-generated unique id; holds
the declared length and the optional metadata". -/
structure CometFile where
  id : String
  upload_length : Nat
  metadata : Option (List (Str × Str))

/-- `CreationResponder` (`src/handlers/creation.rs`, lines 93–96). -/
inductive CreationResponder where
  | Success : String → CreationResponder
  | Failure : Status → String → CreationResponder
deriving DecidableEq

/-- `creation_handler` (`src/handlers/creation.rs`, lines 11–30).  The
vault collaborator is passed as a function (`meteoritus.vault.add`), and
the externally generated uuid as `assignedId`.  A vault error yields
`Failure(InternalServerError, "some error")`; on success the location is
`format!("/files/{}", file.id())`.  The optional `on_creation` callback is
fire-and-forget and does not affect the returned responder, so it is not
modelled. -/
def creation_handler (vaultAdd : CometFile → Except String Unit) (assignedId : String)
    (req : CreationRequest) : CreationResponder :=
  let file : CometFile :=
    { id := assignedId, upload_length := req.upload_length, metadata := req.metadata }
  match vaultAdd file with
  | .error _ => .Failure .InternalServerError "some error"
  | .ok _ => .Success ("/files/" ++ assignedId)

/-- Modelled from the spec: `Meteoritus::get_protocol_resumable_version`
is defined outside the analyzed core; per §4.3/§6 the success response
carries "the protocol-version header echoed with the server's supported
version", i.e. `Tus-Resumable: 1.0.0`. -/
def get_protocol_resumable_version : String × String := ("Tus-Resumable", "1.0.0")

/-- The rendered HTTP response: status, headers, body. -/
structure HttpResponse where
  status : Status
  headers : List (String × String)
  body : String
deriving DecidableEq

/-- `CreationResponder::respond_to` (`src/handlers/creation.rs`, lines
98–113): a failure renders its status with the message as sized body; a
success renders status `Created` with the protocol-version header and a
`Location` header holding the uri, and an empty body. -/
def CreationResponder.respond_to : CreationResponder → HttpResponse
  | .Failure status error => { status := status, headers := [], body := error }
  | .Success uri =>
    { status := .Created
      headers := [get_protocol_resumable_version, ("Location", uri)]
      body := "" }

/-! ## Lemmas about splitting and trimming -/

theorem splitOnChar_ne_nil (sep : Char) (s : Str) : splitOnChar sep s ≠ [] := by
  cases s with
  | nil => simp [splitOnChar]
  | cons c cs => simp only [splitOnChar]; split <;> simp

theorem splitOnChar_head (sep : Char) (s : Str) :
    ∃ t, splitOnChar sep s = s.takeWhile (fun c => !(c == sep)) :: t := by
  induction s with
  | nil => exact ⟨[], rfl⟩
  | cons c cs ih =>
    obtain ⟨t, ht⟩ := ih
    by_cases h : c = sep
    · refine ⟨splitOnChar sep cs, ?_⟩
      simp [splitOnChar, h, List.takeWhile_cons]
    · refine ⟨t, ?_⟩
      simp [splitOnChar, h, List.takeWhile_cons, ht]

theorem splitOnChar_nosep (sep : Char) (s : Str) (h : ∀ c ∈ s, c ≠ sep) :
    splitOnChar sep s = [s] := by
  induction s with
  | nil => rfl
  | cons c cs ih =>
    have hc : c ≠ sep := h c (by simp)
    have hrest := ih (fun x hx => h x (by simp [hx]))
    simp [splitOnChar, hc, hrest]

theorem splitOnChar_append_sep (sep : Char) (a b : Str) (h : ∀ c ∈ a, c ≠ sep) :
    splitOnChar sep (a ++ sep :: b) = a :: splitOnChar sep b := by
  induction a with
  | nil => simp [splitOnChar]
  | cons c a' ih =>
    have hc : c ≠ sep := h c (by simp)
    have hrest := ih (fun x hx => h x (by simp [hx]))
    simp [splitOnChar, hc, hrest]

/-- Join segments with a separator character (inverse of splitting, used to
build well-formed wire strings). -/
def joinSep (sep : Char) : List Str → Str
  | [] => []
  | [p] => p
  | p :: q :: ps => p ++ sep :: joinSep sep (q :: ps)

theorem splitOnChar_joinSep (sep : Char) (ps : List Str) (hne : ps ≠ [])
    (h : ∀ p ∈ ps, ∀ c ∈ p, c ≠ sep) : splitOnChar sep (joinSep sep ps) = ps := by
  induction ps with
  | nil => exact absurd rfl hne
  | cons p ps ih =>
    cases ps with
    | nil => exact splitOnChar_nosep sep p (h p (by simp))
    | cons q ps' =>
      have := splitOnChar_append_sep sep p (joinSep sep (q :: ps')) (h p (by simp))
      rw [joinSep, this, ih (by simp) (fun x hx => h x (by simp [hx]))]

theorem dropWhile_nows (p : Char → Bool) (s : Str) (h : ∀ c ∈ s, p c = false) :
    s.dropWhile p = s := by
  cases s with
  | nil => rfl
  | cons c cs => simp [List.dropWhile_cons, h c (by simp)]

theorem dropWhile_head_false (p : Char → Bool) (s : Str) (c : Char) (t : Str)
    (h : s.dropWhile p = c :: t) : p c = false := by
  induction s with
  | nil => simp at h
  | cons c' cs ih =>
    rw [List.dropWhile_cons] at h
    by_cases hp : p c'
    · exact ih (by simpa [hp] using h)
    · simp [hp] at h
      simpa [← h.1] using hp

theorem rustTrim_nows (s : Str) (h : ∀ c ∈ s, isRustWhitespace c = false) :
    rustTrim s = s := by
  unfold rustTrim trimLeft
  rw [dropWhile_nows _ _ h, dropWhile_nows _ _ (fun c hc => h c (by simpa using hc)),
    List.reverse_reverse]

theorem rustTrim_ne_nil (c : Char) (s : Str) (hc : isRustWhitespace c = false) :
    rustTrim (c :: s) ≠ [] := by
  unfold rustTrim trimLeft
  rw [List.dropWhile_cons]
  simp only [hc]
  intro hcon
  rw [List.reverse_eq_nil_iff, List.dropWhile_eq_nil_iff] at hcon
  have := hcon c (by simp)
  simp [hc] at this

theorem rustTrim_head_not_ws (s : Str) (c : Char) (t : Str)
    (h : rustTrim s = c :: t) : isRustWhitespace c = false := by
  unfold rustTrim trimLeft at h
  set X := s.dropWhile isRustWhitespace with hX
  have hsuf : X.reverse.dropWhile isRustWhitespace <:+ X.reverse :=
    List.dropWhile_suffix _
  have hpre : (X.reverse.dropWhile isRustWhitespace).reverse <+: X := by
    have := hsuf.reverse
    simpa using this
  obtain ⟨r, hr⟩ := hpre
  rw [h] at hr
  exact dropWhile_head_false _ s c (t ++ r) (by rw [← hX, ← hr]; simp)

/-! ## Lemmas about the Base64 codec -/

theorem getD_mem_or (l : List Char) : ∀ (n : Nat) (d : Char), l.getD n d ∈ l ∨ l.getD n d = d := by
  induction l with
  | nil => intro n d; right; simp
  | cons c cs ih =>
    intro n d
    cases n with
    | zero => left; simp
    | succ k =>
      rcases ih k d with h | h
      · left; rw [List.getD_cons_succ]; exact List.mem_cons_of_mem _ h
      · right; rw [List.getD_cons_succ, h]

theorem b64char_mem (n : Nat) : b64char n ∈ b64chars := by
  rcases getD_mem_or b64chars n 'A' with h | h
  · exact h
  · unfold b64char
    rw [h]
    decide

theorem b64val_b64char : ∀ n, n < 64 → b64val (b64char n) = some n := by decide

theorem b64char_ne_pad (n : Nat) : b64char n ≠ '=' :=
  fun h => absurd (h ▸ b64char_mem n) (by decide)

theorem not_ws_ne_space (c : Char) (h : isRustWhitespace c = false) : c ≠ ' ' := by
  intro he
  rw [he] at h
  simp [isRustWhitespace] at h

theorem b64chars_flags : ∀ c ∈ b64chars, isRustWhitespace c = false ∧ c ≠ ',' := by decide

theorem b64encode_mem : ∀ (bs : List Nat), ∀ c ∈ b64encode bs, c ∈ b64chars ∨ c = '='
  | [], _, h => by simp [b64encode] at h
  | [a], x, hx => by
    simp only [b64encode, List.mem_cons, List.not_mem_nil, or_false] at hx
    rcases hx with h | h | h | h
    · exact Or.inl (h ▸ b64char_mem _)
    · exact Or.inl (h ▸ b64char_mem _)
    · exact Or.inr h
    · exact Or.inr h
  | [a, b], x, hx => by
    simp only [b64encode, List.mem_cons, List.not_mem_nil, or_false] at hx
    rcases hx with h | h | h | h
    · exact Or.inl (h ▸ b64char_mem _)
    · exact Or.inl (h ▸ b64char_mem _)
    · exact Or.inl (h ▸ b64char_mem _)
    · exact Or.inr h
  | a :: b :: c :: rest, x, hx => by
    simp only [b64encode, List.mem_cons] at hx
    rcases hx with h | h | h | h | h
    · exact Or.inl (h ▸ b64char_mem _)
    · exact Or.inl (h ▸ b64char_mem _)
    · exact Or.inl (h ▸ b64char_mem _)
    · exact Or.inl (h ▸ b64char_mem _)
    · exact b64encode_mem rest x h

theorem b64encode_flags (bs : List Nat) :
    ∀ c ∈ b64encode bs, isRustWhitespace c = false ∧ c ≠ ',' := by
  intro c hc
  rcases b64encode_mem bs c hc with h | h
  · exact b64chars_flags c h
  · exact h ▸ ⟨by decide, by decide⟩

theorem b64_roundtrip :
    ∀ (bs : List Nat), (∀ x ∈ bs, x < 256) → b64decode (b64encode bs) = .ok bs
  | [], _ => rfl
  | [a], h => by
    have ha : a < 256 := h a (by simp)
    simp only [b64encode, b64decode, b64val_b64char _ (by omega : a / 4 < 64),
      b64val_b64char _ (by omega : a % 4 * 16 < 64)]
    rw [if_pos (by simp), if_pos (by omega : a % 4 * 16 % 16 = 0)]
    have he : a / 4 * 4 + a % 4 * 16 / 16 = a := by omega
    rw [he]
  | [a, b], h => by
    have ha : a < 256 := h a (by simp)
    have hb : b < 256 := h b (by simp)
    simp only [b64encode, b64decode, b64val_b64char _ (by omega : a / 4 < 64),
      b64val_b64char _ (by omega : a % 4 * 16 + b / 16 < 64),
      b64val_b64char _ (by omega : b % 16 * 4 < 64)]
    rw [if_neg (by simp [b64char_ne_pad]), if_pos (by simp),
      if_pos (by omega : b % 16 * 4 % 4 = 0)]
    have h1 : a / 4 * 4 + (a % 4 * 16 + b / 16) / 16 = a := by omega
    have h2 : (a % 4 * 16 + b / 16) % 16 * 16 + b % 16 * 4 / 4 = b := by omega
    rw [h1, h2]
  | a :: b :: c :: rest, h => by
    have ha : a < 256 := h a (by simp)
    have hb : b < 256 := h b (by simp)
    have hc : c < 256 := h c (by simp)
    have ih := b64_roundtrip rest (fun x hx => h x (by simp [hx]))
    simp only [b64encode, b64decode, b64val_b64char _ (by omega : a / 4 < 64),
      b64val_b64char _ (by omega : a % 4 * 16 + b / 16 < 64),
      b64val_b64char _ (by omega : b % 16 * 4 + c / 64 < 64),
      b64val_b64char _ (by omega : c % 64 < 64), ih]
    rw [if_neg (by simp [b64char_ne_pad]), if_neg (by simp [b64char_ne_pad])]
    have h1 : a / 4 * 4 + (a % 4 * 16 + b / 16) / 16 = a := by omega
    have h2 : (a % 4 * 16 + b / 16) % 16 * 16 + (b % 16 * 4 + c / 64) / 4 = b := by omega
    have h3 : (b % 16 * 4 + c / 64) % 4 * 64 + c % 64 = c := by omega
    rw [h1, h2, h3]

/-! ## Lemmas about the association-list map -/

theorem find?_filter_of_imp (p q : Str × Str → Bool) (l : List (Str × Str))
    (h : ∀ x, p x = true → q x = true) : (l.filter q).find? p = l.find? p := by
  induction l with
  | nil => rfl
  | cons x xs ih =>
    by_cases hq : q x
    · rw [List.filter_cons_of_pos hq]
      by_cases hp : p x
      · rw [List.find?_cons_of_pos _ hp, List.find?_cons_of_pos _ hp]
      · rw [List.find?_cons_of_neg _ hp, List.find?_cons_of_neg _ hp, ih]
    · have hp : ¬p x = true := fun hpx => hq (h x hpx)
      rw [List.filter_cons_of_neg hq, List.find?_cons_of_neg _ hp, ih]

theorem mapGet_insert_self (m : List (Str × Str)) (k v : Str) :
    mapGet (mapInsert m k v) k = some v := by
  unfold mapGet mapInsert
  rw [List.find?_append]
  have h1 : (m.filter (fun p => !(p.1 == k))).find? (fun p => p.1 == k) = none := by
    rw [List.find?_eq_none]
    intro p hp
    have := (List.mem_filter.mp hp).2
    simp at this
    simp [this]
  rw [h1]
  simp

theorem mapGet_insert_other (m : List (Str × Str)) (k v k' : Str) (h : k' ≠ k) :
    mapGet (mapInsert m k v) k' = mapGet m k' := by
  unfold mapGet mapInsert
  rw [List.find?_append,
    find?_filter_of_imp _ _ m (by
      intro x hx
      simp only [beq_iff_eq] at hx
      simp [hx, h])]
  cases hf : m.find? (fun p => p.1 == k') with
  | some x => simp
  | none =>
    have hkk : (k == k') = false := by
      rw [beq_eq_false_iff_ne]
      exact Ne.symm h
    have h2 : ([(k, v)] : List (Str × Str)).find? (fun p => p.1 == k') = none := by
      simp [List.find?, hkk]
    simp [h2]

/-- Folding `mapInsert` over a list of bindings (the shape of both parse
loops once the per-pair processing has been resolved). -/
def insFold (m : List (Str × Str)) (kvs : List (Str × Str)) : List (Str × Str) :=
  kvs.foldl (fun acc kv => mapInsert acc kv.1 kv.2) m

theorem mapGet_insFold_not_mem (kvs : List (Str × Str)) (m : List (Str × Str)) (k : Str)
    (h : ∀ kv ∈ kvs, kv.1 ≠ k) : mapGet (insFold m kvs) k = mapGet m k := by
  induction kvs generalizing m with
  | nil => rfl
  | cons kv kvs ih =>
    have : insFold m (kv :: kvs) = insFold (mapInsert m kv.1 kv.2) kvs := rfl
    rw [this, ih _ (fun x hx => h x (List.mem_cons_of_mem _ hx)),
      mapGet_insert_other _ _ _ _ (Ne.symm (h kv (by simp)))]

theorem mapGet_insFold_mem :
    ∀ (kvs m : List (Str × Str)) (k v : Str), (kvs.map Prod.fst).Nodup → (k, v) ∈ kvs →
      mapGet (insFold m kvs) k = some v
  | [], _, _, _, _, hmem => by simp at hmem
  | kv :: kvs, m, k, v, hnd, hmem => by
    rw [List.map_cons, List.nodup_cons] at hnd
    have hstep : insFold m (kv :: kvs) = insFold (mapInsert m kv.1 kv.2) kvs := rfl
    rcases List.mem_cons.mp hmem with he | hm
    · have hkv1 : kv.1 = k := by rw [← he]
      have hk : ∀ x ∈ kvs, x.1 ≠ k := by
        intro x hx hxk
        exact hnd.1 (hkv1.symm ▸ hxk ▸ List.mem_map_of_mem Prod.fst hx)
      rw [hstep, mapGet_insFold_not_mem kvs _ k hk, ← he]
      exact mapGet_insert_self m k v
    · rw [hstep]
      exact mapGet_insFold_mem kvs (mapInsert m kv.1 kv.2) k v hnd.2 hm

theorem mapInsert_keys_nodup (m : List (Str × Str)) (k v : Str)
    (h : (m.map Prod.fst).Nodup) : ((mapInsert m k v).map Prod.fst).Nodup := by
  unfold mapInsert
  rw [List.map_append]
  refine List.Nodup.append ?_ (by simp) ?_
  · exact List.Nodup.sublist ((List.filter_sublist _).map _) h
  · intro a ha hb
    simp only [List.map_cons, List.map_nil, List.mem_singleton] at hb
    obtain ⟨p, hp, hpa⟩ := List.mem_map.mp ha
    have := (List.mem_filter.mp hp).2
    simp only [Bool.not_eq_true', beq_eq_false_iff_ne] at this
    exact this (hpa.trans hb)

/-! ## Lemmas about the strict parse loop -/

theorem parts_head_ne_nil (pair : Str) (h : rustTrim pair ≠ []) :
    ((splitOnChar ' ' (rustTrim pair)).map rustTrim).headD [] ≠ [] := by
  rcases ht : rustTrim pair with _ | ⟨c, t⟩
  · exact absurd ht h
  · have hcws : isRustWhitespace c = false := rustTrim_head_not_ws pair c t ht
    have hcsp : (!(c == ' ')) = true := by simp [not_ws_ne_space c hcws]
    obtain ⟨tl, hsplit⟩ := splitOnChar_head ' ' (c :: t)
    rw [hsplit, List.map_cons, List.headD_cons]
    have htw : List.takeWhile (fun x => !(x == ' ')) (c :: t) =
        c :: List.takeWhile (fun x => !(x == ' ')) t := by
      simp [List.takeWhile_cons, hcsp]
    rw [htw]
    exact rustTrim_ne_nil c _ hcws

theorem tryFromPairs_cons (pair : Str) (rest : List Str) (m : List (Str × Str)) :
    tryFromPairs (pair :: rest) m =
      if rustTrim pair = [] then tryFromPairs rest m
      else if ((splitOnChar ' ' (rustTrim pair)).map rustTrim) = [] ∨
          ((splitOnChar ' ' (rustTrim pair)).map rustTrim).length > 2 then
        .error .InvalidMetadataFormat
      else if ((splitOnChar ' ' (rustTrim pair)).map rustTrim).headD [] = [] then
        .error .InvalidKey
      else
        tryFromPairs rest (mapInsert m (((splitOnChar ' ' (rustTrim pair)).map rustTrim).headD [])
          (((((splitOnChar ' ' (rustTrim pair)).map rustTrim)).get? 1).getD [])) := rfl

theorem tryFromPairs_ne_invalid_key :
    ∀ (pairs : List Str) (m : List (Str × Str)), tryFromPairs pairs m ≠ .error .InvalidKey
  | [], m => by simp [tryFromPairs]
  | pair :: rest, m => by
    rw [tryFromPairs_cons]
    by_cases h0 : rustTrim pair = []
    · rw [if_pos h0]
      exact tryFromPairs_ne_invalid_key rest m
    · rw [if_neg h0]
      by_cases h1 : ((splitOnChar ' ' (rustTrim pair)).map rustTrim) = [] ∨
          ((splitOnChar ' ' (rustTrim pair)).map rustTrim).length > 2
      · rw [if_pos h1]
        simp
      · rw [if_neg h1, if_neg (parts_head_ne_nil pair h0)]
        exact tryFromPairs_ne_invalid_key rest _

theorem tryFromPairs_err :
    ∀ (pairs : List Str) (m : List (Str × Str)),
      (∃ pair ∈ pairs, (splitOnChar ' ' (rustTrim pair)).length > 2) →
      tryFromPairs pairs m = .error .InvalidMetadataFormat
  | [], _, h => by simp at h
  | pair :: rest, m, ⟨w, hw, hlen⟩ => by
    rw [tryFromPairs_cons]
    by_cases h0 : rustTrim pair = []
    · rw [if_pos h0]
      rcases List.mem_cons.mp hw with he | hm
      · rw [he, h0] at hlen
        simp [splitOnChar] at hlen
      · exact tryFromPairs_err rest m ⟨w, hm, hlen⟩
    · rw [if_neg h0]
      by_cases h1 : ((splitOnChar ' ' (rustTrim pair)).map rustTrim) = [] ∨
          ((splitOnChar ' ' (rustTrim pair)).map rustTrim).length > 2
      · rw [if_pos h1]
      · rw [if_neg h1, if_neg (parts_head_ne_nil pair h0)]
        rcases List.mem_cons.mp hw with he | hm
        · exfalso
          rw [he] at hlen
          exact h1 (Or.inr (by rw [List.length_map]; exact hlen))
        · exact tryFromPairs_err rest _ ⟨w, hm, hlen⟩

theorem tryFromPairs_ok :
    ∀ (pairs : List Str) (m : List (Str × Str)),
      (∀ pair ∈ pairs, (splitOnChar ' ' (rustTrim pair)).length ≤ 2) →
      ∃ m', tryFromPairs pairs m = .ok m'
  | [], m, _ => ⟨m, rfl⟩
  | pair :: rest, m, h => by
    rw [tryFromPairs_cons]
    by_cases h0 : rustTrim pair = []
    · rw [if_pos h0]
      exact tryFromPairs_ok rest m (fun p hp => h p (List.mem_cons_of_mem _ hp))
    · rw [if_neg h0]
      have hlen : ((splitOnChar ' ' (rustTrim pair)).map rustTrim).length ≤ 2 := by
        rw [List.length_map]
        exact h pair (by simp)
      have hne : ((splitOnChar ' ' (rustTrim pair)).map rustTrim) ≠ [] := by
        intro hcon
        exact splitOnChar_ne_nil ' ' (rustTrim pair) (List.map_eq_nil_iff.mp hcon)
      have hcond : ¬(((splitOnChar ' ' (rustTrim pair)).map rustTrim) = [] ∨
          ((splitOnChar ' ' (rustTrim pair)).map rustTrim).length > 2) := by
        rw [not_or]
        exact ⟨hne, by omega⟩
      rw [if_neg hcond, if_neg (parts_head_ne_nil pair h0)]
      exact tryFromPairs_ok rest _ (fun p hp => h p (List.mem_cons_of_mem _ hp))

theorem try_from_ne_invalid_key_aux (s : Str) : Metadata.try_from s ≠ .error .InvalidKey := by
  unfold Metadata.try_from
  by_cases h : s = []
  · rw [if_pos h]
    simp
  · rw [if_neg h]
    cases he : tryFromPairs (splitOnChar ',' s) [] with
    | ok m => simp [Except.map]
    | error e =>
      have hne := tryFromPairs_ne_invalid_key (splitOnChar ',' s) []
      rw [he] at hne
      simp only [Except.map]
      intro hcon
      injection hcon with h'
      exact hne (by rw [h'])

/-! ## Lemmas about well-formed wire strings -/

theorem trimLeft_cons_nows (c : Char) (s : Str) (h : isRustWhitespace c = false) :
    trimLeft (c :: s) = c :: s := by
  unfold trimLeft
  rw [List.dropWhile_cons]
  simp [h]

theorem rustTrim_wire (k enc : Str) (hk : k ≠ [])
    (hknws : ∀ c ∈ k, isRustWhitespace c = false)
    (hencws : ∀ c ∈ enc, isRustWhitespace c = false) :
    rustTrim (k ++ ' ' :: enc) = if enc = [] then k else k ++ ' ' :: enc := by
  cases k with
  | nil => exact absurd rfl hk
  | cons c0 k' =>
    have hc0 : isRustWhitespace c0 = false := hknws c0 (by simp)
    have hleft : trimLeft ((c0 :: k') ++ ' ' :: enc) = (c0 :: k') ++ ' ' :: enc := by
      rw [List.cons_append]
      exact trimLeft_cons_nows c0 _ hc0
    unfold rustTrim
    rw [hleft]
    by_cases he : enc = []
    · subst he
      rw [if_pos rfl]
      have hrev : ((c0 :: k') ++ ' ' :: ([] : Str)).reverse = ' ' :: (c0 :: k').reverse := by
        simp
      rw [hrev, List.dropWhile_cons]
      have hsp : isRustWhitespace ' ' = true := by decide
      simp only [hsp, if_true]
      rw [dropWhile_nows _ _ (fun c hc => hknws c (List.mem_reverse.mp hc)),
        List.reverse_reverse]
    · rw [if_neg he]
      rcases hrv : enc.reverse with _ | ⟨e', r'⟩
      · exact absurd (by simpa using hrv) he
      · have he' : isRustWhitespace e' = false := hencws e' (by
          have : e' ∈ enc.reverse := by rw [hrv]; simp
          exact List.mem_reverse.mp this)
        have hrev : ((c0 :: k') ++ ' ' :: enc).reverse =
            e' :: (r' ++ ' ' :: (c0 :: k').reverse) := by
          rw [List.reverse_append]
          simp [hrv]
        rw [hrev, List.dropWhile_cons]
        simp only [he', Bool.false_eq_true, if_false]
        rw [← hrev, List.reverse_reverse]

theorem tryFromPairs_wire_cons (k : Str) (bs : List Nat) (rest : List Str)
    (m : List (Str × Str)) (hk : k ≠ [])
    (hknws : ∀ c ∈ k, isRustWhitespace c = false) :
    tryFromPairs ((k ++ ' ' :: b64encode bs) :: rest) m =
      tryFromPairs rest (mapInsert m k (b64encode bs)) := by
  have hencws : ∀ c ∈ b64encode bs, isRustWhitespace c = false :=
    fun c hc => (b64encode_flags bs c hc).1
  have hksp : ∀ c ∈ k, c ≠ ' ' := fun c hc => not_ws_ne_space c (hknws c hc)
  have hencsp : ∀ c ∈ b64encode bs, c ≠ ' ' := fun c hc => not_ws_ne_space c (hencws c hc)
  have htrimk : rustTrim k = k := rustTrim_nows k hknws
  rw [tryFromPairs_cons, rustTrim_wire k _ hk hknws hencws]
  by_cases he : b64encode bs = []
  · rw [he, if_pos rfl, if_neg hk, splitOnChar_nosep ' ' k hksp]
    simp only [List.map_cons, List.map_nil, htrimk, List.headD_cons]
    rw [if_neg (by simp), if_neg hk]
    rfl
  · rw [if_neg he, if_neg (by simp [hk]),
      splitOnChar_append_sep ' ' k _ hksp, splitOnChar_nosep ' ' _ hencsp]
    simp only [List.map_cons, List.map_nil, htrimk, rustTrim_nows _ hencws,
      List.headD_cons]
    rw [if_neg (by simp), if_neg hk]
    rfl

theorem tryFromPairs_wire :
    ∀ (kvs : List (Str × List Nat)) (m : List (Str × Str)),
      (∀ kv ∈ kvs, kv.1 ≠ [] ∧ ∀ c ∈ kv.1, isRustWhitespace c = false) →
      tryFromPairs (kvs.map (fun kv => kv.1 ++ ' ' :: b64encode kv.2)) m =
        .ok (insFold m (kvs.map (fun kv => (kv.1, b64encode kv.2))))
  | [], m, _ => rfl
  | kv :: kvs, m, h => by
    rw [List.map_cons,
      tryFromPairs_wire_cons kv.1 kv.2 _ m (h kv (by simp)).1 (h kv (by simp)).2]
    exact tryFromPairs_wire kvs _ (fun x hx => h x (List.mem_cons_of_mem _ hx))

theorem tryFromPairs_nodup :
    ∀ (pairs : List Str) (m m' : List (Str × Str)),
      (m.map Prod.fst).Nodup → tryFromPairs pairs m = .ok m' →
      (m'.map Prod.fst).Nodup
  | [], m, m', h, he => by
    injection he with h'
    exact h' ▸ h
  | pair :: rest, m, m', h, he => by
    rw [tryFromPairs_cons] at he
    by_cases h0 : rustTrim pair = []
    · rw [if_pos h0] at he
      exact tryFromPairs_nodup rest m m' h he
    · rw [if_neg h0] at he
      by_cases h1 : ((splitOnChar ' ' (rustTrim pair)).map rustTrim) = [] ∨
          ((splitOnChar ' ' (rustTrim pair)).map rustTrim).length > 2
      · rw [if_pos h1] at he
        exact absurd he (by simp)
      · rw [if_neg h1, if_neg (parts_head_ne_nil pair h0)] at he
        exact tryFromPairs_nodup rest _ m' (mapInsert_keys_nodup m _ _ h) he

/-- The wire string built by Base64-encoding each binding's bytes and
joining `key SPACE value` pairs with commas. -/
def metadataWire (kvs : List (Str × List Nat)) : Str :=
  joinSep ',' (kvs.map (fun kv => kv.1 ++ ' ' :: b64encode kv.2))

theorem joinSep_cons_ne_nil (sep : Char) (p : Str) (ps : List Str) (hp : p ≠ []) :
    joinSep sep (p :: ps) ≠ [] := by
  cases ps with
  | nil => simpa [joinSep] using hp
  | cons q ps' =>
    rw [joinSep]
    intro hcon
    exact hp (List.append_eq_nil.mp hcon).1

theorem splitOnChar_metadataWire (kvs : List (Str × List Nat)) (hne : kvs ≠ [])
    (h : ∀ kv ∈ kvs, ∀ c ∈ kv.1, c ≠ ',') :
    splitOnChar ',' (metadataWire kvs) =
      kvs.map (fun kv => kv.1 ++ ' ' :: b64encode kv.2) := by
  apply splitOnChar_joinSep
  · simp [hne]
  · intro p hp c hc
    obtain ⟨kv, hkv, hpe⟩ := List.mem_map.mp hp
    rw [← hpe] at hc
    rcases List.mem_append.mp hc with hck | hcse
    · exact h kv hkv c hck
    · rcases List.mem_cons.mp hcse with hsp | hnc
      · rw [hsp]
        decide
      · exact (b64encode_flags kv.2 c hnc).2

/-! ## Claim theorems -/

/-- The metadata header of end-to-end scenario C (also the repo's own
`METADATA_STR` test constant in `src/fs/metadata.rs`). -/
def exampleHeaderC : Str :=
  "relativePath bnVsbA==, filename bXlfdmlkZW8ubXA0, filetype dmlkZW8vbXA0,is_confidential".toList

/-- Claim C1, counterexample: the claim says the lenient reader
(`parse_tus_metadata`) maps the scenario-C header to a mapping whose keys
are exactly `relativePath`, `filename` and `filetype`.  In fact neither
`filename` nor `filetype` is a key of the result: the pairs `" filename …"`
and `" filetype …"` start with the space that follows the comma, so
`find(' ')` returns index 0 and the key trims to the empty string. -/
theorem C1_lenient_reader_counterexample :
    mapGet (parse_tus_metadata exampleHeaderC) "filename".toList = none ∧
    mapGet (parse_tus_metadata exampleHeaderC) "filetype".toList = none := by decide

/-- Claim C1, amended: on the scenario-C header the lenient reader
produces a mapping of exactly two keys, `relativePath` (mapped to
`bnVsbA==`) and the empty string (mapped to `filetype dmlkZW8vbXA0`, the
last empty-key pair winning), and the space-less `is_confidential` pair is
dropped entirely. -/
theorem C1_lenient_reader_amended :
    mapGet (parse_tus_metadata exampleHeaderC) "relativePath".toList =
      some "bnVsbA==".toList ∧
    mapGet (parse_tus_metadata exampleHeaderC) [] =
      some "filetype dmlkZW8vbXA0".toList ∧
    mapGet (parse_tus_metadata exampleHeaderC) "is_confidential".toList = none ∧
    (parse_tus_metadata exampleHeaderC).length = 2 := by decide

/-- Claim C3: strict parse (`Metadata::try_from`) fails with
`InvalidMetadataFormat` on the empty string; it fails with
`InvalidMetadataFormat` whenever some trimmed comma-separated pair splits
on the space character into three or more tokens; and when every trimmed
pair splits into at most two tokens (one token: key only with empty value;
two tokens: key and value) the parse is accepted. -/
theorem C3_strict_parse_format_errors :
    Metadata.try_from [] = .error .InvalidMetadataFormat ∧
    (∀ s : Str, (∃ pair ∈ splitOnChar ',' s,
        (splitOnChar ' ' (rustTrim pair)).length > 2) →
      Metadata.try_from s = .error .InvalidMetadataFormat) ∧
    (∀ s : Str, s ≠ [] →
      (∀ pair ∈ splitOnChar ',' s, (splitOnChar ' ' (rustTrim pair)).length ≤ 2) →
      ∃ m, Metadata.try_from s = .ok m) := by
  refine ⟨rfl, ?_, ?_⟩
  · intro s h
    unfold Metadata.try_from
    by_cases hnil : s = []
    · rw [if_pos hnil]
    · rw [if_neg hnil, tryFromPairs_err _ _ h]
      rfl
  · intro s hnil h
    unfold Metadata.try_from
    rw [if_neg hnil]
    obtain ⟨m', hm'⟩ := tryFromPairs_ok _ [] h
    exact ⟨⟨m'⟩, by rw [hm']; rfl⟩

/-- Witness for C3: the repo's own test string `"foobar, fas bars foo bar, "`
(whose second pair has four tokens) is rejected, and a string whose pairs
all have at most two tokens is accepted. -/
theorem C3_strict_parse_format_errors_witness :
    Metadata.try_from "foobar, fas bars foo bar, ".toList =
      .error .InvalidMetadataFormat ∧
    (∃ m, Metadata.try_from "foobar, foo YmFy".toList = .ok m) :=
  ⟨C3_strict_parse_format_errors.2.1 _
      ⟨" fas bars foo bar".toList, by decide, by decide⟩,
   C3_strict_parse_format_errors.2.2 _ (by decide) (by decide)⟩

/-- Claim C4: parsing `"k v1, k v2"` with strict parse yields a mapping
whose stored raw value for `k` is `v2` (the last occurrence wins), and for
every successful strict parse the keys of the resulting mapping are
unique. -/
theorem C4_duplicate_keys_last_wins :
    (Metadata.try_from "k v1, k v2".toList =
        .ok ⟨[("k".toList, "v2".toList)]⟩ ∧
      mapGet [("k".toList, "v2".toList)] "k".toList = some "v2".toList) ∧
    (∀ (s : Str) (m : Metadata), Metadata.try_from s = .ok m →
      (m.entries.map Prod.fst).Nodup) := by
  refine ⟨⟨rfl, by decide⟩, ?_⟩
  intro s m hm
  unfold Metadata.try_from at hm
  by_cases hnil : s = []
  · rw [if_pos hnil] at hm
    exact absurd hm (by simp)
  · rw [if_neg hnil] at hm
    cases he : tryFromPairs (splitOnChar ',' s) [] with
    | ok m' =>
      rw [he] at hm
      simp only [Except.map] at hm
      injection hm with h'
      have hnd := tryFromPairs_nodup (splitOnChar ',' s) [] m' (by simp) he
      rw [← h']
      exact hnd
    | error e =>
      rw [he] at hm
      exact absurd hm (by simp [Except.map])

/-- Witness for C4: the duplicate-key example itself has unique keys. -/
theorem C4_duplicate_keys_last_wins_witness :
    ((Metadata.mk [("k".toList, "v2".toList)]).entries.map Prod.fst).Nodup :=
  C4_duplicate_keys_last_wins.2 "k v1, k v2".toList ⟨[("k".toList, "v2".toList)]⟩ rfl

/-- Claim C5: `get_raw` returns `InvalidKey` exactly when the key is
absent; on a present key it strict-standard-Base64-decodes the stored
value, returning the decoded bytes on success and `DecodeError` with the
decoder's diagnostic text on failure. -/
theorem C5_get_raw_contract (m : Metadata) (key : Str) :
    (mapGet m.entries key = none → m.get_raw key = .error .InvalidKey) ∧
    (∀ v, mapGet m.entries key = some v →
      (∀ bs, b64decode v = .ok bs → m.get_raw key = .ok bs) ∧
      (∀ e, b64decode v = .error e → m.get_raw key = .error (.DecodeError e))) := by
  refine ⟨?_, ?_⟩
  · intro h
    unfold Metadata.get_raw
    rw [h]
  · intro v hv
    refine ⟨?_, ?_⟩
    · intro bs hbs
      simp [Metadata.get_raw, hv, hbs]
    · intro e he
      simp [Metadata.get_raw, hv, he]

/-- Witness for C5: an absent key, a present key holding valid Base64
(`bnVsbA==` decodes to `null`), and a present key holding invalid Base64. -/
theorem C5_get_raw_contract_witness :
    (Metadata.mk []).get_raw "k".toList = .error .InvalidKey ∧
    (Metadata.mk [("k".toList, "bnVsbA==".toList)]).get_raw "k".toList =
      .ok [110, 117, 108, 108] ∧
    (Metadata.mk [("k".toList, "!!".toList)]).get_raw "k".toList =
      .error (.DecodeError "Invalid input length") :=
  ⟨(C5_get_raw_contract ⟨[]⟩ "k".toList).1 rfl,
   ((C5_get_raw_contract ⟨[("k".toList, "bnVsbA==".toList)]⟩ "k".toList).2
      "bnVsbA==".toList rfl).1 [110, 117, 108, 108] rfl,
   ((C5_get_raw_contract ⟨[("k".toList, "!!".toList)]⟩ "k".toList).2
      "!!".toList rfl).2 "Invalid input length" rfl⟩

/-- `true` exactly on the `InvalidKey` error outcome of a strict parse. -/
def isInvalidKeyError : Except MetadataError Metadata → Bool
  | .error .InvalidKey => true
  | _ => false

/-- Claim C10: strict parse never returns `InvalidKey`: every trimmed
non-empty pair starts with a non-whitespace character, so the first token
of its space-split is non-empty and the `InvalidKey` branch of `try_from`
is unreachable. -/
theorem C10_strict_parse_never_invalid_key (s : Str) :
    isInvalidKeyError (Metadata.try_from s) = false := by
  cases he : Metadata.try_from s with
  | ok m => rfl
  | error e =>
    cases e with
    | InvalidKey => exact absurd he (try_from_ne_invalid_key_aux s)
    | DecodeError msg => rfl
    | InvalidMetadataFormat => rfl

theorem get_raw_mk (entries : List (Str × Str)) (key : Str) :
    (Metadata.mk entries).get_raw key =
      match mapGet entries key with
      | none => .error .InvalidKey
      | some v =>
        match b64decode v with
        | .ok decoded => .ok decoded
        | .error e => .error (.DecodeError e) := rfl

/-- Claim C2: for every non-empty list of bindings whose keys are
non-empty, whitespace-free, comma-free and pairwise distinct, strict parse
of the wire string built by Base64-encoding each value and joining
`key SPACE value` pairs with commas succeeds, and `get_raw` on each key
returns exactly the original bytes (encode → parse → decode round trip). -/
theorem C2_strict_parse_roundtrip (kvs : List (Str × List Nat)) (hne : kvs ≠ [])
    (hkey : ∀ kv ∈ kvs, kv.1 ≠ [] ∧ ∀ c ∈ kv.1, isRustWhitespace c = false ∧ c ≠ ',')
    (hbytes : ∀ kv ∈ kvs, ∀ x ∈ kv.2, x < 256)
    (hnd : (kvs.map Prod.fst).Nodup) :
    ∃ m : Metadata, Metadata.try_from (metadataWire kvs) = .ok m ∧
      ∀ kv ∈ kvs, m.get_raw kv.1 = .ok kv.2 := by
  have hkey1 : ∀ kv ∈ kvs, kv.1 ≠ [] ∧ ∀ c ∈ kv.1, isRustWhitespace c = false :=
    fun kv hkv => ⟨(hkey kv hkv).1, fun c hc => ((hkey kv hkv).2 c hc).1⟩
  have hwire := splitOnChar_metadataWire kvs hne
    (fun kv hkv c hc => ((hkey kv hkv).2 c hc).2)
  have hne2 : metadataWire kvs ≠ [] := by
    rcases kvs with _ | ⟨kv, rest⟩
    · exact absurd rfl hne
    · unfold metadataWire
      rw [List.map_cons]
      apply joinSep_cons_ne_nil
      intro hcon
      exact (hkey1 kv (by simp)).1 (List.append_eq_nil.mp hcon).1
  refine ⟨⟨insFold [] (kvs.map (fun kv => (kv.1, b64encode kv.2)))⟩, ?_, ?_⟩
  · unfold Metadata.try_from
    rw [if_neg hne2, hwire, tryFromPairs_wire kvs [] hkey1]
    rfl
  · intro kv hkv
    have hget : mapGet (insFold [] (kvs.map (fun x => (x.1, b64encode x.2)))) kv.1 =
        some (b64encode kv.2) := by
      apply mapGet_insFold_mem
      · rw [List.map_map]
        exact hnd
      · exact List.mem_map_of_mem _ hkv
    rw [get_raw_mk, hget]
    simp only [b64_roundtrip kv.2 (hbytes kv hkv)]

/-- Witness for C2: two bindings, `filename ↦ "my_video.mp4"` and
`filetype ↦ "video/mp4"` (as bytes). -/
theorem C2_strict_parse_roundtrip_witness :
    ∃ m : Metadata,
      Metadata.try_from (metadataWire
        [("filename".toList, [109, 121, 95, 118, 105, 100, 101, 111, 46, 109, 112, 52]),
         ("filetype".toList, [118, 105, 100, 101, 111, 47, 109, 112, 52])]) = .ok m ∧
      ∀ kv ∈ ([("filename".toList, [109, 121, 95, 118, 105, 100, 101, 111, 46, 109, 112, 52]),
          ("filetype".toList, [118, 105, 100, 101, 111, 47, 109, 112, 52])] :
          List (Str × List Nat)),
        m.get_raw kv.1 = .ok kv.2 :=
  C2_strict_parse_roundtrip _ (by decide) (by decide) (by decide) (by decide)

/-- Claim C6: whenever the `Tus-Resumable` header is absent or differs
from the literal `"1.0.0"`, negotiation fails with `BadRequest` and the
resumability-header reason — whatever the other headers contain, i.e. the
check runs before any other header is examined. -/
theorem C6_version_check_first (maxSize : Nat) (h : RequestHeaders)
    (hv : h.tusResumable ≠ some ("1.0.0".toList)) :
    from_request maxSize h =
      .Failure .BadRequest "Missing or invalid Tus-Resumable header" := by
  unfold from_request
  cases hr : h.tusResumable with
  | none => rfl
  | some v =>
    rw [hr] at hv
    have hne : v ≠ "1.0.0".toList := fun heq => hv (by rw [heq])
    simp only [ne_eq, ite_not]
    rw [if_neg hne]

/-- Witness for C6: a wrong version value is rejected even with all other
headers present and valid. -/
theorem C6_version_check_first_witness :
    from_request 1000
      ⟨some "0.9.9".toList, some "0".toList, some "100".toList, none⟩ =
      .Failure .BadRequest "Missing or invalid Tus-Resumable header" :=
  C6_version_check_first 1000 _ (by decide)

/-- Claim C7: once the version and content-length checks pass, a missing
`Upload-Length` header or one that does not parse as a `u64` is rejected
with `BadRequest`; a parsed value above the configured ceiling is rejected
with the distinct `PayloadTooLarge`; and a parsed value at or below the
ceiling passes, becoming the intent's `upload_length`. -/
theorem C7_upload_length_checks (maxSize : Nat) (h : RequestHeaders) (cl : Str)
    (hv : h.tusResumable = some ("1.0.0".toList))
    (hc : h.contentLength = some cl) :
    (h.uploadLength = none →
      from_request maxSize h = .Failure .BadRequest "Missing Upload-Length header") ∧
    (∀ s, h.uploadLength = some s → parseU64 s = none →
      from_request maxSize h = .Failure .BadRequest "Invalid Upload-Length header") ∧
    (∀ s n, h.uploadLength = some s → parseU64 s = some n → n > maxSize →
      from_request maxSize h =
        .Failure .PayloadTooLarge "Upload-Length exceeds the Tus-Max-Size") ∧
    (∀ s n, h.uploadLength = some s → parseU64 s = some n → n ≤ maxSize →
      ∃ req, from_request maxSize h = .Success req ∧ req.upload_length = n) := by
  refine ⟨?_, ?_, ?_, ?_⟩
  · intro hu
    simp [from_request, hv, hc, hu]
  · intro s hu hp
    simp [from_request, hv, hc, hu, hp]
  · intro s n hu hp hgt
    simp [from_request, hv, hc, hu, hp, hgt]
  · intro s n hu hp hle
    have hngt : ¬n > maxSize := not_lt.mpr hle
    refine ⟨{ upload_length := n,
              metadata := match h.uploadMetadata with
                | none => none
                | some m => if m = [] then none
                  else some (parse_tus_metadata m) }, ?_, rfl⟩
    simp [from_request, hv, hc, hu, hp, hngt]

/-- Witness for C7: with version and content-length valid and ceiling
1000, a missing length, an unparsable length, a length of 5000, and a
length of 100 produce the four distinct outcomes. -/
theorem C7_upload_length_checks_witness :
    from_request 1000 ⟨some "1.0.0".toList, some "0".toList, none, none⟩ =
      .Failure .BadRequest "Missing Upload-Length header" ∧
    from_request 1000 ⟨some "1.0.0".toList, some "0".toList, some "abc".toList, none⟩ =
      .Failure .BadRequest "Invalid Upload-Length header" ∧
    from_request 1000 ⟨some "1.0.0".toList, some "0".toList, some "5000".toList, none⟩ =
      .Failure .PayloadTooLarge "Upload-Length exceeds the Tus-Max-Size" ∧
    (∃ req, from_request 1000
        ⟨some "1.0.0".toList, some "0".toList, some "100".toList, none⟩ =
        .Success req ∧ req.upload_length = 100) :=
  ⟨(C7_upload_length_checks 1000 _ "0".toList rfl rfl).1 rfl,
   (C7_upload_length_checks 1000 _ "0".toList rfl rfl).2.1 "abc".toList rfl (by decide),
   (C7_upload_length_checks 1000 _ "0".toList rfl rfl).2.2.1 "5000".toList 5000 rfl
      (by decide) (by decide),
   (C7_upload_length_checks 1000 _ "0".toList rfl rfl).2.2.2 "100".toList 100 rfl
      (by decide) (by decide)⟩

/-- Claim C8: if the vault rejects persistence of the record built from a
validated intent, the orchestrator answers `InternalServerError` with the
fixed non-specific body `"some error"`, independently of the vault's own
error text, which therefore never reaches the response body. -/
theorem C8_vault_failure_internal_error (vaultAdd : CometFile → Except String Unit)
    (assignedId : String) (req : CreationRequest) (err : String)
    (hfail : vaultAdd { id := assignedId,
                        upload_length := req.upload_length,
                        metadata := req.metadata } = .error err) :
    creation_handler vaultAdd assignedId req =
      .Failure .InternalServerError "some error" ∧
    (creation_handler vaultAdd assignedId req).respond_to =
      { status := .InternalServerError, headers := [], body := "some error" } := by
  refine ⟨?_, ?_⟩ <;>
    simp [creation_handler, hfail, CreationResponder.respond_to]

/-- Witness for C8: a vault that fails with `"disk full"` still produces
the fixed `"some error"` body. -/
theorem C8_vault_failure_internal_error_witness :
    creation_handler (fun _ => .error "disk full") "abc123" ⟨100, none⟩ =
      .Failure .InternalServerError "some error" :=
  (C8_vault_failure_internal_error (fun _ => .error "disk full") "abc123"
    ⟨100, none⟩ "disk full" rfl).1

/-- Claim C9: when the vault accepts the record, the orchestrator succeeds
with location `"/files/" ++ id`, and the rendered response has status
`Created`, a `Location` header holding that path, and the protocol-version
header `Tus-Resumable: 1.0.0`, with an empty body. -/
theorem C9_success_location (vaultAdd : CometFile → Except String Unit)
    (assignedId : String) (req : CreationRequest)
    (hok : vaultAdd { id := assignedId,
                      upload_length := req.upload_length,
                      metadata := req.metadata } = .ok ()) :
    creation_handler vaultAdd assignedId req =
      .Success ("/files/" ++ assignedId) ∧
    (creation_handler vaultAdd assignedId req).respond_to =
      { status := .Created,
        headers := [("Tus-Resumable", "1.0.0"),
          ("Location", "/files/" ++ assignedId)],
        body := "" } := by
  refine ⟨?_, ?_⟩ <;>
    simp [creation_handler, hok, CreationResponder.respond_to,
      get_protocol_resumable_version]

/-- Witness for C9: an always-accepting vault and id `"abc123"` yield
location `/files/abc123`. -/
theorem C9_success_location_witness :
    creation_handler (fun _ => .ok ()) "abc123" ⟨100, none⟩ =
      .Success "/files/abc123" :=
  (C9_success_location (fun _ => .ok ()) "abc123" ⟨100, none⟩ rfl).1
